import Mathlib

/-!
Shallow embedding of the two programs of this repository:

* `src/A4/interval.cpp` — a custom Gecode brancher (`IntervalBrancher`)
  forcing mandatory parts of interval variables, together with the post
  function `interval`.
* `src/A4/MaximumDensityStillLife.cpp` — the constraint model of the
  maximum-density still-life problem and its branch-and-bound `constrain`
  hook.

Integer variable domains are modelled as finite sets of integers; the
`double` percentage `p` is modelled as a rational number (the comparisons
of the source are exact real comparisons on these values).
-/

namespace Interval

/-- A variable domain: the still-possible integer values, listed in
ascending order (the iteration order of `IntVarValues`). The
representation invariant — strictly sorted, so a set — is carried as a
hypothesis by the theorems that need it. -/
abbrev Dom := List ℤ

/-- `IntView::min()` of a (nonempty) domain. -/
def dmin (d : Dom) : ℤ := d.headD 0

/-- `IntView::max()` of a (nonempty) domain. -/
def dmax (d : Dom) : ℤ := d.getLastD 0

/-- `IntView::assigned()`: exactly one value left. -/
def assigned (d : Dom) : Bool := d.length == 1

/-- The state of `IntervalBrancher`: views `x`, widths `w`, percentage `p`
and the mutable cache `start` of the first unassigned view. -/
structure IntervalBrancher where
  x : List Dom
  w : List ℤ
  p : ℚ
  start : ℕ
deriving DecidableEq

/-- The brancher's `Choice` (`IntervalBrancher::Description`): position of
the view, split point, and the stored alternatives count `alt`. -/
structure Description where
  pos : ℤ
  split_point : ℤ
  alt : ℤ
deriving DecidableEq

namespace IntervalBrancher

/-- The selection condition tested by `status` at index `i`:
`(x[i].min() + w[i]) - x[i].max() < p*w[i] && !x[i].assigned()`. -/
def slackCond (b : IntervalBrancher) (i : ℕ) : Bool :=
  let d := b.x.getD i []
  let wi := b.w.getD i 0
  decide (((dmin d + wi - dmax d : ℤ) : ℚ) < b.p * (wi : ℚ)) && !(assigned d)

/-- The loop of `status`: the first index `i` in `[lo, x.size())` satisfying
`slackCond`, if any. -/
def statusSearch (b : IntervalBrancher) (lo : ℕ) : Option ℕ :=
  if lo < b.x.length then
    if b.slackCond lo then some lo else b.statusSearch (lo + 1)
  else none
termination_by b.x.length - lo

/-- `IntervalBrancher::status`: scans from the cached `start`; on success
caches the found index in `start` and reports `true`, otherwise reports
`false` leaving the brancher unchanged. -/
def status (b : IntervalBrancher) : Bool × IntervalBrancher :=
  match b.statusSearch b.start with
  | some i => (true, { b with start := i })
  | none => (false, b)

/-- The predicate of the loop in `choice`:
`(x[start].min() + w[start]) - k.val() >= p*w[start]`. -/
def splitPred (xmin wi : ℤ) (p : ℚ) (k : ℤ) : Bool :=
  decide (p * (wi : ℚ) ≤ ((xmin + wi - k : ℤ) : ℚ))

/-- The loop of `choice`: iterate the domain values in ascending order,
overwriting `split_point` with every value satisfying `splitPred`; the
accumulator `none` models a still-uninitialized `split_point`. -/
def splitScan (xmin wi : ℤ) (p : ℚ) : List ℤ → Option ℤ → Option ℤ
  | [], acc => acc
  | k :: rest, acc =>
      splitScan xmin wi p rest (if splitPred xmin wi p k then some k else acc)

/-- `IntervalBrancher::choice(Space&)`: two alternatives at position
`start`, with the split point computed by scanning the values of
`x[start]`; `none` when the scan never assigns `split_point` (the source
reads an uninitialized variable in that case). -/
def choice (b : IntervalBrancher) : Option Description :=
  let d := b.x.getD b.start []
  let wi := b.w.getD b.start 0
  (splitScan (dmin d) wi b.p d none).map
    fun sp => { pos := (b.start : ℤ), split_point := sp, alt := 2 }

/-- The domain narrowing performed by `commit`: alternative `0` posts
`x[pos].lq(home, split_point)`, any other alternative posts
`x[pos].gr(home, split_point)`. -/
def narrow (d : Dom) (k : ℤ) (a : ℕ) : Dom :=
  if a = 0 then d.filter (fun v => decide (v ≤ k))
  else d.filter (fun v => decide (k < v))

/-- `IntervalBrancher::commit`: narrows `x[pos]`; `none` models
`ES_FAILED` (the modification event is `me_failed`, i.e. the narrowed
domain is empty), `some` models `ES_OK` with the updated views. -/
def commit (xs : List Dom) (desc : Description) (a : ℕ) : Option (List Dom) :=
  let pos := desc.pos.toNat
  let r := narrow (xs.getD pos []) desc.split_point a
  if r.isEmpty then none else some (xs.set pos r)

end IntervalBrancher

/-- `Description::archive`: after `Choice::archive(e)` the payload written
is `e << split_point << alt << pos`. -/
def Description.archive (d : Description) : List ℤ :=
  [d.split_point, d.alt, d.pos]

/-- `IntervalBrancher::choice(const Space&, Archive&)`: reads
`e >> split_point >> alternatives >> position` off the payload and
rebuilds the description with `pos = position`, `alt = alternatives`. -/
def choiceFromArchive : List ℤ → Option Description
  | split :: alts :: posn :: _ =>
      some { pos := posn, split_point := split, alt := alts }
  | _ => none

/-- Outcome of the post function `interval`. -/
inductive PostResult where
  | thrown (fn : String)
  | unchanged
  | posted (b : IntervalBrancher)
deriving DecidableEq

/-- The post function `interval(home, x, w, p)`: throws
`ArgumentSizeMismatch("interval")` when the sizes differ, returns without
posting when the space is failed, and otherwise posts the brancher with
`start = 0`. `failed` models `home.failed()`. -/
def interval (failed : Bool) (x : List Dom) (w : List ℤ) (p : ℚ) :
    PostResult :=
  if x.length ≠ w.length then .thrown "interval"
  else if failed then .unchanged
  else .posted { x := x, w := w, p := p, start := 0 }

end Interval

namespace StillLife

/-- One full assignment of the still-life model's variables: cell values
(indexed `matrix(col, row)`), the 3×3 block counts `sliceOfMDP` indexed by
the top-left anchor of the block, and the live-cell count `noOfLives`. -/
structure LifeAssign where
  cell : ℕ → ℕ → Bool
  sliceAt : ℕ → ℕ → ℤ
  noOfLives : ℤ

/-- Value of a boolean cell as the integer it contributes to linear sums. -/
def b2i (b : Bool) : ℤ := if b then 1 else 0

/-- Sum over `matrix.slice(c0, c1, r0, r1)`: columns `c0..c1-1` and rows
`r0..r1-1`. -/
def sliceSum (f : ℕ → ℕ → Bool) (c0 c1 r0 r1 : ℕ) : ℤ :=
  ((List.range (c1 - c0)).map fun i =>
    ((List.range (r1 - r0)).map fun j => b2i (f (c0 + i) (r0 + j))).sum).sum

/-- Sum of the cells returned by `getNeighbours(col, row)`: the eight
cells around `(c, r)`. -/
def neighboursSum (f : ℕ → ℕ → Bool) (c r : ℕ) : ℤ :=
  b2i (f (c - 1) (r - 1)) + b2i (f c (r - 1)) + b2i (f (c + 1) (r - 1))
    + b2i (f (c - 1) r) + b2i (f (c + 1) r)
    + b2i (f (c - 1) (r + 1)) + b2i (f c (r + 1)) + b2i (f (c + 1) (r + 1))

/-- The per-cell still-life constraints posted for interior cell `(c, r)`:
the reified sums `two_neighbours` and `three_neighbours`, their
disjunction `still_live`, and the two implications
`matrix(col,row) >> still_live` and `!matrix(col,row) >> !three_neighbours`.
The three fresh boolean variables of the source are existentially
quantified. -/
def cellConstraint (a : LifeAssign) (c r : ℕ) : Prop :=
  ∃ two three still : Bool,
    ((two = true) ↔ neighboursSum a.cell c r = 2) ∧
    ((three = true) ↔ neighboursSum a.cell c r = 3) ∧
    still = (two || three) ∧
    (a.cell c r = true → still = true) ∧
    (a.cell c r = false → three = false)

instance (a : LifeAssign) (c r : ℕ) : Decidable (cellConstraint a c r) := by
  unfold cellConstraint; infer_instance

/-- `board_size`: the interior size `os.size()` plus a border of two cells
on each side. -/
def boardSize (s : ℕ) : ℕ := s + 4

/-- The interior coordinates `2 .. board_size - 3`: the ranges of the
constraint-posting loops. -/
def interior (s : ℕ) : List ℕ := (List.range s).map (· + 2)

/-- All constraints posted by the `MaximumDensityStillLife` constructor for
interior size `s`, together with the declared variable domains:
the live-cell count, the empty border of width two, the per-cell
still-life constraints, the 3×3 block counts at anchors
`col % 3 = 2 ∧ row % 3 = 2`, and the inner-most border windows with fewer
than three live cells. -/
def stillLifeConstraints (s : ℕ) (a : LifeAssign) : Prop :=
  sliceSum a.cell 0 (boardSize s) 0 (boardSize s) = a.noOfLives ∧
  (0 ≤ a.noOfLives ∧ a.noOfLives ≤ (s : ℤ) ^ 2) ∧
  sliceSum a.cell 0 2 0 (boardSize s) = 0 ∧
  sliceSum a.cell (boardSize s - 2) (boardSize s) 0 (boardSize s) = 0 ∧
  sliceSum a.cell 2 (boardSize s - 2) 0 2 = 0 ∧
  sliceSum a.cell 2 (boardSize s - 2) (boardSize s - 2) (boardSize s) = 0 ∧
  (∀ c ∈ interior s, ∀ r ∈ interior s,
    cellConstraint a c r ∧
    (c % 3 = 2 → r % 3 = 2 →
      sliceSum a.cell c (c + 3) r (r + 3) = a.sliceAt c r ∧
      0 ≤ a.sliceAt c r ∧ a.sliceAt c r ≤ 6)) ∧
  (∀ c ∈ interior s,
    sliceSum a.cell 2 3 c (c + 3) < 3 ∧
    sliceSum a.cell c (c + 3) 2 3 < 3 ∧
    sliceSum a.cell (boardSize s - 3) (boardSize s - 2) c (c + 3) < 3 ∧
    sliceSum a.cell c (c + 3) (boardSize s - 3) (boardSize s - 2) < 3)

instance (s : ℕ) (a : LifeAssign) : Decidable (stillLifeConstraints s a) := by
  unfold stillLifeConstraints; infer_instance

/-- The all-zero assignment: every cell dead, every block count zero, no
live cells. -/
def allZero : LifeAssign where
  cell := fun _ _ => false
  sliceAt := fun _ _ => 0
  noOfLives := 0

/-- The objective data of a yielded solution, as used by `constrain`. -/
structure Objective where
  noOfLives : ℤ
  sliceOfMDP : List ℤ
deriving DecidableEq

/-- `MaximumDensityStillLife::constrain(s)`: the two constraints
`noOfLives > mdsl.noOfLives` and `sum(sliceOfMDP) > sum(mdsl.sliceOfMDP)`
added against the incumbent solution `best`, evaluated on a candidate. -/
def constrainOK (best cand : Objective) : Bool :=
  decide (best.noOfLives < cand.noOfLives) &&
    decide (best.sliceOfMDP.sum < cand.sliceOfMDP.sum)

/-- Modelled from the spec: the branch-and-bound Search Engine is supplied
by the external solver, not by this repository. Following §4.4, the
engine explores candidate spaces depth-first and yields a candidate when
it is feasible and, once an incumbent solution exists, when it also
satisfies the caller's `constrain(bestSoFar)` hook; every yielded solution
becomes the incumbent for the remaining exploration. -/
def babRun (feasible : Objective → Bool) :
    List Objective → Option Objective → List Objective
  | [], _ => []
  | s :: rest, best =>
      if feasible s && (match best with
        | none => true
        | some b => constrainOK b s) then
        s :: babRun feasible rest (some s)
      else
        babRun feasible rest best

end StillLife

namespace Interval

theorem headD_mem (l : List ℤ) (h : l ≠ []) : l.headD 0 ∈ l := by
  cases l with
  | nil => exact absurd rfl h
  | cons a t => simp

theorem getLastD_eq_getLast (l : List ℤ) (x : ℤ) (h : l ≠ []) :
    l.getLastD x = l.getLast h := by
  cases l with
  | nil => exact absurd rfl h
  | cons a t => rfl

theorem getLastD_mem (l : List ℤ) (x : ℤ) (h : l ≠ []) : l.getLastD x ∈ l := by
  rw [getLastD_eq_getLast l x h]
  exact List.getLast_mem h

theorem headD_le_of_sorted (l : List ℤ) (hs : l.Sorted (· ≤ ·)) (v : ℤ)
    (hv : v ∈ l) : l.headD 0 ≤ v := by
  cases l with
  | nil => cases hv
  | cons a t =>
    rw [List.sorted_cons] at hs
    rcases List.mem_cons.mp hv with rfl | hv2
    · exact le_rfl
    · exact hs.1 v hv2

theorem le_getLast_of_sorted (l : List ℤ) :
    l.Sorted (· ≤ ·) → ∀ v ∈ l, ∀ h : l ≠ [], v ≤ l.getLast h := by
  induction l with
  | nil => intro _ v hv; cases hv
  | cons a t ih =>
    intro hs v hv h
    rw [List.sorted_cons] at hs
    cases t with
    | nil =>
      rcases List.mem_cons.mp hv with rfl | hv2
      · exact le_rfl
      · cases hv2
    | cons b t2 =>
      rw [List.getLast_cons (List.cons_ne_nil b t2)]
      rcases List.mem_cons.mp hv with rfl | hv2
      · exact hs.1 _ (List.getLast_mem _)
      · exact ih hs.2 v hv2 _

theorem le_getLastD_of_sorted (l : List ℤ) (x : ℤ) (hs : l.Sorted (· ≤ ·))
    (v : ℤ) (hv : v ∈ l) (h : l ≠ []) : v ≤ l.getLastD x := by
  rw [getLastD_eq_getLast l x h]
  exact le_getLast_of_sorted l hs v hv h

namespace IntervalBrancher

theorem splitScan_all_false (xmin wi : ℤ) (p : ℚ) (l : List ℤ)
    (acc : Option ℤ) (h : ∀ k ∈ l, splitPred xmin wi p k = false) :
    splitScan xmin wi p l acc = acc := by
  induction l generalizing acc with
  | nil => rfl
  | cons a t ih =>
    have ha : splitPred xmin wi p a = false := h a (List.mem_cons_self a t)
    have hstep : splitScan xmin wi p (a :: t) acc =
        splitScan xmin wi p t (if splitPred xmin wi p a then some a else acc) := rfl
    rw [hstep, ha]
    simp only [Bool.false_eq_true, if_false]
    exact ih acc fun k hk => h k (List.mem_cons_of_mem a hk)

theorem splitScan_last_sat (xmin wi : ℤ) (p : ℚ) (l : List ℤ) :
    l.Sorted (· ≤ ·) → ∀ m ∈ l, splitPred xmin wi p m = true → ∀ acc : Option ℤ,
    ∃ sp, splitScan xmin wi p l acc = some sp ∧ sp ∈ l ∧
      splitPred xmin wi p sp = true ∧
      ∀ j ∈ l, splitPred xmin wi p j = true → j ≤ sp := by
  induction l with
  | nil => intro _ m hm; cases hm
  | cons a t ih =>
    intro hs m hm hpm acc
    rw [List.sorted_cons] at hs
    have hstep : splitScan xmin wi p (a :: t) acc =
        splitScan xmin wi p t (if splitPred xmin wi p a then some a else acc) := rfl
    by_cases hex : ∃ k ∈ t, splitPred xmin wi p k = true
    · obtain ⟨k, hk, hpk⟩ := hex
      obtain ⟨sp, hrun, hmem, hpsp, hmax⟩ :=
        ih hs.2 k hk hpk (if splitPred xmin wi p a then some a else acc)
      refine ⟨sp, by rw [hstep]; exact hrun, List.mem_cons_of_mem a hmem, hpsp, ?_⟩
      intro j hj hpj
      rcases List.mem_cons.mp hj with rfl | hj2
      · exact hs.1 sp hmem
      · exact hmax j hj2 hpj
    · push_neg at hex
      have hallf : ∀ k ∈ t, splitPred xmin wi p k = false := by
        intro k hk
        exact Bool.eq_false_iff.mpr (hex k hk)
      have hma : m = a := by
        rcases List.mem_cons.mp hm with rfl | h2
        · rfl
        · exact absurd hpm (by simp [hallf m h2])
      subst hma
      refine ⟨m, ?_, List.mem_cons_self m t, hpm, ?_⟩
      · rw [hstep, hpm]
        simp only [if_true]
        exact splitScan_all_false xmin wi p t (some m) hallf
      · intro j hj hpj
        rcases List.mem_cons.mp hj with rfl | hj2
        · exact le_rfl
        · exact absurd hpj (by simp [hallf j hj2])

theorem statusSearch_none (b : IntervalBrancher) (lo : ℕ)
    (h : b.statusSearch lo = none) :
    ∀ i, lo ≤ i → i < b.x.length → b.slackCond i = false := by
  intro i hlo hi
  rw [statusSearch] at h
  split at h
  · split at h
    · cases h
    · next hc =>
      rcases Nat.eq_or_lt_of_le hlo with rfl | hlt
      · exact Bool.eq_false_iff.mpr hc
      · exact statusSearch_none b (lo + 1) h i hlt hi
  · next hge => omega
termination_by b.x.length - lo

theorem statusSearch_some (b : IntervalBrancher) (lo i : ℕ)
    (h : b.statusSearch lo = some i) :
    lo ≤ i ∧ i < b.x.length ∧ b.slackCond i = true ∧
    ∀ j, lo ≤ j → j < i → b.slackCond j = false := by
  rw [statusSearch] at h
  split at h
  · next hlt =>
    split at h
    · next hc =>
      cases h
      exact ⟨le_rfl, hlt, hc, fun j h1 h2 => absurd h1 (by omega)⟩
    · next hc =>
      obtain ⟨h1, h2, h3, h4⟩ := statusSearch_some b (lo + 1) i h
      refine ⟨by omega, h2, h3, ?_⟩
      intro j hj1 hj2
      rcases Nat.eq_or_lt_of_le hj1 with rfl | hj3
      · exact Bool.eq_false_iff.mpr hc
      · exact h4 j hj3 hj2
  · cases h
termination_by b.x.length - lo

theorem statusSearch_isSome (b : IntervalBrancher) (lo i : ℕ)
    (hlo : lo ≤ i) (hi : i < b.x.length) (hc : b.slackCond i = true) :
    ∃ j, b.statusSearch lo = some j := by
  cases hss : b.statusSearch lo with
  | some j => exact ⟨j, rfl⟩
  | none =>
    have := statusSearch_none b lo hss i hlo hi
    rw [hc] at this
    cases this

theorem status_fixpoint (b : IntervalBrancher)
    (hst : status b = (true, b)) :
    b.slackCond b.start = true ∧ b.start < b.x.length := by
  unfold status at hst
  cases hss : b.statusSearch b.start with
  | none => rw [hss] at hst; cases hst
  | some i =>
    rw [hss] at hst
    obtain ⟨h1, h2, h3, _⟩ := statusSearch_some b b.start i hss
    have hi : i = b.start := congrArg (fun q => q.snd.start) hst
    exact ⟨hi ▸ h3, hi ▸ h2⟩

end IntervalBrancher

end Interval

namespace StillLife

/-- The incumbent, if any, in front of the upcoming yields: used to state the
chain invariant of `babRun`. -/
def consOpt : Option Objective → List Objective → List Objective
  | none, l => l
  | some b, l => b :: l

theorem babRun_chain_constrain (feasible : Objective → Bool) (xs : List Objective) :
    ∀ best : Option Objective,
      List.Chain' (fun u v => constrainOK u v = true)
        (consOpt best (babRun feasible xs best)) := by
  induction xs with
  | nil =>
    intro best
    cases best with
    | none => exact List.chain'_nil
    | some b => exact List.chain'_singleton b
  | cons s rest ih =>
    intro best
    cases best with
    | none =>
      have hunf : babRun feasible (s :: rest) none =
          if (feasible s && true) = true then s :: babRun feasible rest (some s)
          else babRun feasible rest none := rfl
      by_cases hf : (feasible s && true) = true
      · rw [show consOpt none (babRun feasible (s :: rest) none) =
            babRun feasible (s :: rest) none from rfl, hunf, if_pos hf]
        exact ih (some s)
      · rw [show consOpt none (babRun feasible (s :: rest) none) =
            babRun feasible (s :: rest) none from rfl, hunf, if_neg hf]
        exact ih none
    | some b =>
      have hunf : babRun feasible (s :: rest) (some b) =
          if (feasible s && constrainOK b s) = true then
            s :: babRun feasible rest (some s)
          else babRun feasible rest (some b) := rfl
      by_cases hf : (feasible s && constrainOK b s) = true
      · rw [show consOpt (some b) (babRun feasible (s :: rest) (some b)) =
            b :: babRun feasible (s :: rest) (some b) from rfl, hunf, if_pos hf]
        have hcs : constrainOK b s = true := by
          simp only [Bool.and_eq_true] at hf
          exact hf.2
        have hch := ih (some s)
        exact List.chain'_cons.mpr ⟨hcs, hch⟩
      · rw [show consOpt (some b) (babRun feasible (s :: rest) (some b)) =
            b :: babRun feasible (s :: rest) (some b) from rfl, hunf, if_neg hf]
        exact ih (some b)

end StillLife

open Interval Interval.IntervalBrancher StillLife

/-- Claim C2: for a choice with split point `k`, committing alternative 0 and
alternative 1 on two clones of the same node narrows the prior domain into the
values `≤ k` and the values `> k` respectively: no value satisfies both
constraints, and every value previously in the domain satisfies exactly one of
them. -/
theorem commit_alternatives_partition (d : Interval.Dom)
    (desc : Interval.Description) :
    (∀ v, v ∈ narrow d desc.split_point 0 ↔ v ∈ d ∧ v ≤ desc.split_point) ∧
    (∀ v, v ∈ narrow d desc.split_point 1 ↔ v ∈ d ∧ desc.split_point < v) ∧
    (∀ v, ¬(v ∈ narrow d desc.split_point 0 ∧ v ∈ narrow d desc.split_point 1)) ∧
    (∀ v ∈ d,
      (v ∈ narrow d desc.split_point 0 ∧ v ∉ narrow d desc.split_point 1) ∨
      (v ∈ narrow d desc.split_point 1 ∧ v ∉ narrow d desc.split_point 0)) := by
  refine ⟨?_, ?_, ?_, ?_⟩
  · intro v; simp [narrow, List.mem_filter]
  · intro v; simp [narrow, List.mem_filter]
  · intro v
    rintro ⟨h0, h1⟩
    simp [narrow, List.mem_filter] at h0 h1
    omega
  · intro v hv
    by_cases h : v ≤ desc.split_point
    · left
      refine ⟨by simp [narrow, List.mem_filter, hv, h], ?_⟩
      simp [narrow, List.mem_filter, hv]
      omega
    · right
      refine ⟨by simp [narrow, List.mem_filter, hv]; omega, ?_⟩
      simp [narrow, List.mem_filter, hv]
      omega

/-- Claim C3: `status()` returns true exactly when some index `i ≥ start`
holds an unassigned view whose slack `(min + width) - max` is below `p` times
its width (`slackCond`); in that case the cached position `start` is updated
to the first such index and the rest of the brancher state is unchanged. -/
theorem status_first_slack_below (b : Interval.IntervalBrancher) :
    ((status b).fst = true ↔
      ∃ i, b.start ≤ i ∧ i < b.x.length ∧ b.slackCond i = true) ∧
    ((status b).fst = true →
      (status b).snd.x = b.x ∧ (status b).snd.w = b.w ∧ (status b).snd.p = b.p ∧
      b.start ≤ (status b).snd.start ∧ (status b).snd.start < b.x.length ∧
      b.slackCond (status b).snd.start = true ∧
      ∀ j, b.start ≤ j → j < (status b).snd.start → b.slackCond j = false) := by
  unfold Interval.IntervalBrancher.status
  cases hss : b.statusSearch b.start with
  | none =>
    simp only [hss]
    constructor
    · constructor
      · intro h; simp at h
      · rintro ⟨i, h1, h2, h3⟩
        have := statusSearch_none b b.start hss i h1 h2
        rw [h3] at this
        cases this
    · intro h; simp at h
  | some i =>
    obtain ⟨h1, h2, h3, h4⟩ := statusSearch_some b b.start i hss
    simp only [hss]
    exact ⟨⟨fun _ => ⟨i, h1, h2, h3⟩, fun _ => by simp⟩,
      fun _ => ⟨by simp, by simp, by simp, h1, h2, h3, h4⟩⟩

/-- Claim C9: archiving a description and reconstructing it through
`choice(const Space&, Archive&)` yields a description with the same position
and split point, and committing any alternative of the reconstruction narrows
the views exactly as committing the same alternative of the original. -/
theorem archive_replay_identical (d : Interval.Description) :
    ∃ d2, choiceFromArchive (Interval.Description.archive d) = some d2 ∧
      d2.pos = d.pos ∧ d2.split_point = d.split_point ∧
      ∀ (xs : List Interval.Dom) (a : ℕ), commit xs d2 a = commit xs d a :=
  ⟨d, rfl, rfl, rfl, fun _ _ => rfl⟩

/-- Claim C10: the post function `interval` throws
`ArgumentSizeMismatch("interval")` exactly when the argument sizes differ —
this check precedes the failed-space test, so nothing is posted in that case —
and when the sizes agree it leaves a failed space unchanged, posting the
brancher only on an unfailed space. -/
theorem interval_post_spec (failed : Bool) (x : List Interval.Dom)
    (w : List ℤ) (p : ℚ) :
    (interval failed x w p = PostResult.thrown "interval" ↔
      x.length ≠ w.length) ∧
    (interval failed x w p = PostResult.unchanged ↔
      (x.length = w.length ∧ failed = true)) ∧
    (interval failed x w p = PostResult.posted ⟨x, w, p, 0⟩ ↔
      (x.length = w.length ∧ failed = false)) := by
  by_cases h : x.length = w.length
  · cases failed <;> simp [Interval.interval, h]
  · simp [Interval.interval, h]

/-- Claim C4: `constrain(s)` posts exactly the two constraints
`noOfLives > s.noOfLives` and `sum(sliceOfMDP) > sum(s.sliceOfMDP)`, so under
the spec-modelled branch-and-bound engine (`babRun`) every yielded solution
strictly increases both the live-cell count and the block-density sum over the
previously yielded solution. -/
theorem constrain_objective_strictly_increases (feasible : Objective → Bool)
    (xs : List Objective) :
    (∀ best cand : Objective, constrainOK best cand = true ↔
      (best.noOfLives < cand.noOfLives ∧
        best.sliceOfMDP.sum < cand.sliceOfMDP.sum)) ∧
    List.Chain'
      (fun u v => u.noOfLives < v.noOfLives ∧
        u.sliceOfMDP.sum < v.sliceOfMDP.sum)
      (babRun feasible xs none) := by
  constructor
  · intro best cand; simp [constrainOK]
  · have h := babRun_chain_constrain feasible xs none
    exact List.Chain'.imp
      (fun u v huv => by simpa [constrainOK] using huv) h

/-- A concrete brancher instantiating the hypotheses of the choice theorems:
one view with domain `{0, 1, 2, 3}`, width `4`, percentage `1/2`; its slack
`(0 + 4) - 3 = 1` is below `(1/2) * 4 = 2` and the view is unassigned. -/
def witnessBrancher : Interval.IntervalBrancher :=
  { x := [([0, 1, 2, 3] : List ℤ)], w := [4], p := 1/2, start := 0 }

theorem witnessBrancher_slackCond : witnessBrancher.slackCond 0 = true := by
  norm_num [Interval.IntervalBrancher.slackCond, Interval.dmin, Interval.dmax,
    Interval.assigned, witnessBrancher, List.getD]

theorem witnessBrancher_status :
    status witnessBrancher = (true, witnessBrancher) := by
  have h1 : witnessBrancher.statusSearch 0 = some 0 := by
    rw [Interval.IntervalBrancher.statusSearch]
    have hx : witnessBrancher.x.length = 1 := rfl
    simp [hx, witnessBrancher_slackCond]
  unfold Interval.IntervalBrancher.status
  have hs : witnessBrancher.start = 0 := rfl
  rw [hs, h1]
  rfl

/-- Claim C1: on a space where `status()` has returned true with cached
position `start`, the split point stored in the returned description equals
the largest value `k` of the domain of `x[start]` satisfying
`(x[start].min() + w[start]) - k >= p * w[start]` (the claim presupposes such
a `k` exists; the domain is held in ascending order). -/
theorem choice_selects_largest_split (b : Interval.IntervalBrancher)
    (_hst : status b = (true, b))
    (hsort : (b.x.getD b.start []).Sorted (· ≤ ·))
    (hex : ∃ k ∈ b.x.getD b.start [],
      splitPred (dmin (b.x.getD b.start [])) (b.w.getD b.start 0) b.p k = true) :
    ∃ desc, choice b = some desc ∧ desc.pos = (b.start : ℤ) ∧
      desc.split_point ∈ b.x.getD b.start [] ∧
      splitPred (dmin (b.x.getD b.start [])) (b.w.getD b.start 0) b.p
        desc.split_point = true ∧
      ∀ k ∈ b.x.getD b.start [],
        splitPred (dmin (b.x.getD b.start [])) (b.w.getD b.start 0) b.p k = true →
          k ≤ desc.split_point := by
  obtain ⟨m, hm, hpm⟩ := hex
  obtain ⟨sp, hrun, hmem, hpsp, hmax⟩ :=
    splitScan_last_sat (dmin (b.x.getD b.start [])) (b.w.getD b.start 0) b.p
      (b.x.getD b.start []) hsort m hm hpm none
  refine ⟨⟨(b.start : ℤ), sp, 2⟩, ?_, rfl, hmem, hpsp, hmax⟩
  unfold Interval.IntervalBrancher.choice
  dsimp only
  rw [hrun]
  rfl

/-- Witness for C1: the concrete brancher `witnessBrancher` discharges every
hypothesis; the selected split point is the largest domain value `k` with
`4 - k ≥ 2`. -/
theorem choice_selects_largest_split_witness :
    ∃ desc, choice witnessBrancher = some desc ∧
      desc.pos = (witnessBrancher.start : ℤ) ∧
      desc.split_point ∈ witnessBrancher.x.getD witnessBrancher.start [] ∧
      splitPred (dmin (witnessBrancher.x.getD witnessBrancher.start []))
        (witnessBrancher.w.getD witnessBrancher.start 0) witnessBrancher.p
        desc.split_point = true ∧
      ∀ k ∈ witnessBrancher.x.getD witnessBrancher.start [],
        splitPred (dmin (witnessBrancher.x.getD witnessBrancher.start []))
          (witnessBrancher.w.getD witnessBrancher.start 0) witnessBrancher.p
          k = true →
          k ≤ desc.split_point :=
  choice_selects_largest_split witnessBrancher witnessBrancher_status
    (by decide)
    ⟨0, by decide, by
      norm_num [Interval.IntervalBrancher.splitPred, Interval.dmin,
        witnessBrancher, List.getD]⟩

/-- Claim C5 counterexample: for a variable with domain `[0,10]`, width `4`
and fraction `p = 0.5`, `choice()` does not select split point `8`: the
largest `k` with `(0+4) - k ≥ 0.5*4` is `2`. -/
theorem choice_domain_0_10_not_eight :
    (choice { x := [([0, 1, 2, 3, 4, 5, 6, 7, 8, 9, 10] : List ℤ)],
              w := [4], p := 1/2, start := 0 }).map
      Interval.Description.split_point ≠ some 8 := by
  norm_num [Interval.IntervalBrancher.choice,
    Interval.IntervalBrancher.splitScan, Interval.IntervalBrancher.splitPred,
    Interval.dmin, List.getD]

/-- Claim C5 as amended: for a variable with domain `[0,10]`, width `4` and
fraction `p = 0.5`, `choice()` selects split point `2` (the largest `k` in
the domain with `(0+4) - k ≥ 0.5*4`, i.e. `k ≤ 2`). -/
theorem choice_domain_0_10_selects_two :
    (choice { x := [([0, 1, 2, 3, 4, 5, 6, 7, 8, 9, 10] : List ℤ)],
              w := [4], p := 1/2, start := 0 }).map
      Interval.Description.split_point = some 2 := by
  norm_num [Interval.IntervalBrancher.choice,
    Interval.IntervalBrancher.splitScan, Interval.IntervalBrancher.splitPred,
    Interval.dmin, List.getD]

/-- Claim C6: when `status()` has returned true at the cached position and
`0 < p ≤ 1` and `w[start] ≥ 0` hold, the domain minimum already satisfies the
slack predicate of the `choice()` loop, so `split_point` is always assigned
before being stored; the stored split point lies strictly below
`x[start].max()`, so both commit alternatives leave a nonempty domain. -/
theorem choice_split_point_always_assigned (b : Interval.IntervalBrancher)
    (hst : status b = (true, b))
    (hsort : (b.x.getD b.start []).Sorted (· ≤ ·))
    (hne : b.x.getD b.start [] ≠ [])
    (_hp0 : 0 < b.p) (hp1 : b.p ≤ 1) (hw : 0 ≤ b.w.getD b.start 0) :
    splitPred (dmin (b.x.getD b.start [])) (b.w.getD b.start 0) b.p
      (dmin (b.x.getD b.start [])) = true ∧
    ∃ desc, choice b = some desc ∧
      dmin (b.x.getD b.start []) ≤ desc.split_point ∧
      desc.split_point < dmax (b.x.getD b.start []) ∧
      commit b.x desc 0 ≠ none ∧ commit b.x desc 1 ≠ none := by
  have hw' : (0 : ℚ) ≤ ((b.w.getD b.start 0 : ℤ) : ℚ) := by exact_mod_cast hw
  have hpredmin : splitPred (dmin (b.x.getD b.start []))
      (b.w.getD b.start 0) b.p (dmin (b.x.getD b.start [])) = true := by
    have h1 : b.p * ((b.w.getD b.start 0 : ℤ) : ℚ) ≤
        ((dmin (b.x.getD b.start []) + b.w.getD b.start 0 -
          dmin (b.x.getD b.start []) : ℤ) : ℚ) := by
      push_cast
      nlinarith
    exact decide_eq_true h1
  have hminmem : dmin (b.x.getD b.start []) ∈ b.x.getD b.start [] :=
    headD_mem _ hne
  obtain ⟨sp, hrun, hmem, hpsp, hmax⟩ :=
    splitScan_last_sat (dmin (b.x.getD b.start [])) (b.w.getD b.start 0) b.p
      (b.x.getD b.start []) hsort _ hminmem hpredmin none
  have hcond := (status_fixpoint b hst).1
  have hslack : ((dmin (b.x.getD b.start []) + b.w.getD b.start 0 -
      dmax (b.x.getD b.start []) : ℤ) : ℚ) <
      b.p * ((b.w.getD b.start 0 : ℤ) : ℚ) := by
    unfold Interval.IntervalBrancher.slackCond at hcond
    rw [Bool.and_eq_true] at hcond
    exact of_decide_eq_true hcond.1
  have hspq : b.p * ((b.w.getD b.start 0 : ℤ) : ℚ) ≤
      ((dmin (b.x.getD b.start []) + b.w.getD b.start 0 - sp : ℤ) : ℚ) :=
    of_decide_eq_true hpsp
  have hlt : sp < dmax (b.x.getD b.start []) := by
    have hq := lt_of_lt_of_le hslack hspq
    have hz : dmin (b.x.getD b.start []) + b.w.getD b.start 0 -
        dmax (b.x.getD b.start []) <
        dmin (b.x.getD b.start []) + b.w.getD b.start 0 - sp := by
      exact_mod_cast hq
    omega
  have hle : dmin (b.x.getD b.start []) ≤ sp := hmax _ hminmem hpredmin
  have hmaxmem : dmax (b.x.getD b.start []) ∈ b.x.getD b.start [] :=
    getLastD_mem _ 0 hne
  have h0 : dmin (b.x.getD b.start []) ∈
      narrow (b.x.getD b.start []) sp 0 := by
    unfold Interval.IntervalBrancher.narrow
    rw [if_pos rfl, List.mem_filter]
    exact ⟨hminmem, decide_eq_true hle⟩
  have h1m : dmax (b.x.getD b.start []) ∈
      narrow (b.x.getD b.start []) sp 1 := by
    unfold Interval.IntervalBrancher.narrow
    rw [if_neg (by decide : ¬(1 = 0)), List.mem_filter]
    exact ⟨hmaxmem, decide_eq_true hlt⟩
  have hept0 : (narrow (b.x.getD b.start []) sp 0).isEmpty = false := by
    cases hn : narrow (b.x.getD b.start []) sp 0 with
    | nil => rw [hn] at h0; cases h0
    | cons _ _ => rfl
  have hept1 : (narrow (b.x.getD b.start []) sp 1).isEmpty = false := by
    cases hn : narrow (b.x.getD b.start []) sp 1 with
    | nil => rw [hn] at h1m; cases h1m
    | cons _ _ => rfl
  refine ⟨hpredmin, ⟨(b.start : ℤ), sp, 2⟩, ?_, hle, hlt, ?_, ?_⟩
  · unfold Interval.IntervalBrancher.choice
    dsimp only
    rw [hrun]
    rfl
  · unfold Interval.IntervalBrancher.commit
    dsimp only
    rw [Int.toNat_natCast, hept0]
    simp
  · unfold Interval.IntervalBrancher.commit
    dsimp only
    rw [Int.toNat_natCast, hept1]
    simp

/-- Witness for C6: the concrete brancher `witnessBrancher` discharges every
hypothesis; its split point 2 lies strictly between the domain minimum 0 and
maximum 3, and both alternatives keep a nonempty domain. -/
theorem choice_split_point_always_assigned_witness :
    splitPred (dmin (witnessBrancher.x.getD witnessBrancher.start []))
      (witnessBrancher.w.getD witnessBrancher.start 0) witnessBrancher.p
      (dmin (witnessBrancher.x.getD witnessBrancher.start [])) = true ∧
    ∃ desc, choice witnessBrancher = some desc ∧
      dmin (witnessBrancher.x.getD witnessBrancher.start []) ≤
        desc.split_point ∧
      desc.split_point <
        dmax (witnessBrancher.x.getD witnessBrancher.start []) ∧
      commit witnessBrancher.x desc 0 ≠ none ∧
      commit witnessBrancher.x desc 1 ≠ none :=
  choice_split_point_always_assigned witnessBrancher witnessBrancher_status
    (by decide) (by decide) (by norm_num [witnessBrancher])
    (by norm_num [witnessBrancher]) (by decide)

/-- Claim C7: any assignment satisfying the posted still-life constraints has
no interior cell that is dead while having exactly three live neighbours: the
reified `three_neighbours` variable and the implication
`!matrix(col,row) >> !three_neighbours` contradict each other on such a cell,
so the node fails and no yielded solution contains one. -/
theorem no_dead_cell_with_three_live_neighbours (s : ℕ) (a : LifeAssign)
    (h : stillLifeConstraints s a) :
    ∀ c ∈ interior s, ∀ r ∈ interior s,
      a.cell c r = false → neighboursSum a.cell c r ≠ 3 := by
  intro c hc r hr hdead hn3
  obtain ⟨-, -, -, -, -, -, hcells, -⟩ := h
  obtain ⟨two, three, still, h2, h3, hstl, himp1, himp2⟩ := (hcells c hc r hr).1
  have htrue : three = true := h3.mpr hn3
  rw [himp2 hdead] at htrue
  cases htrue

/-- Witness for C7: on the all-zero 8×8 board the interior cell `(3, 3)` is
dead and therefore has a neighbour count different from 3. -/
theorem no_dead_cell_with_three_live_neighbours_witness :
    neighboursSum allZero.cell 3 3 ≠ 3 :=
  no_dead_cell_with_three_live_neighbours 4 allZero (by decide)
    3 (by decide) 3 (by decide) rfl

/-- Claim C8: for interior size 4 (board size 8 with the two-cell border),
the all-zero assignment — every cell dead, `noOfLives = 0`, every
`sliceOfMDP` entry 0 — satisfies every posted constraint and is accepted as
a feasible solution. -/
theorem all_zero_board_feasible :
    boardSize 4 = 8 ∧ stillLifeConstraints 4 allZero := by
  constructor
  · rfl
  · decide
